import Mathlib

/-!
Verification development for the layered UTXO cache (coins.cpp) and the
mini-miner (node/mini_miner.cpp).

The cache is embedded as a pure state-passing model: a cache layer is a
record of its entry table (an association list keyed by outpoint), its
memory counters and its best-block marker, and each operation of
CCoinsViewCache becomes a function on that record.  A two-layer stack
(a top cache whose backing view is a bottom cache whose own backing
view is the trivial CCoinsView that always misses) models the layering
used by Flush and Sync.  Fallible operations return Except String.

The mini-miner is embedded as the post-constructor object state: the
cluster vector of Tx records (individual fee, vsize, parent indices),
the topological order, the requested outpoints, and the txid-to-index
map.  The cached ancestor fee/vsize values the C++ maintains with
logical-time counters are modelled by recomputation from the current
mined set, exactly as calculateAncestorValues produces them (walking
unmined parents only); the disabled consistency assertion in
BuildMockTemplate documents that the cached values always equal this
recomputation.
-/

/-- An outpoint (txid hash, output index); hashes are modelled as Nat. -/
abbrev OutPoint := Nat × Nat

/-- A coin.  Only the observables the cache consumes are kept: the spent
state (IsSpent), whether its script is statically unspendable, and its
dynamic memory usage. -/
structure Coin where
  spent : Bool
  unspendable : Bool
  mem : Nat
deriving DecidableEq

def Coin.IsSpent (c : Coin) : Bool := c.spent

def Coin.DynamicMemoryUsage (c : Coin) : Nat := c.mem

/-- The default-constructed coin: a null output, which IsSpent, with no
dynamic memory. -/
def emptyCoin : Coin := ⟨true, false, 0⟩

/-- Coin::Clear(): reset to the empty (spent) coin. -/
def Coin.Clear (_ : Coin) : Coin := emptyCoin

/-- A cache entry: a coin plus the DIRTY / FRESH / FLUSH flag set. -/
structure CCoinsCacheEntry where
  coin : Coin
  dirty : Bool
  fresh : Bool
  flush : Bool
deriving DecidableEq

/-- The cache table, an association list from outpoint to entry. -/
abbrev CCoinsMap := List (OutPoint × CCoinsCacheEntry)

def findEntry (m : CCoinsMap) (o : OutPoint) : Option CCoinsCacheEntry :=
  (m.find? (fun p => p.1 == o)).map (·.2)

/-- Insert-or-assign on the table: replace the entry at the key when
present, append a new entry otherwise (emplace / in-place mutation). -/
def setEntry : CCoinsMap → OutPoint → CCoinsCacheEntry → CCoinsMap
  | [], o, e => [(o, e)]
  | q :: m, o, e => if q.1 == o then (o, e) :: m else q :: setEntry m o e

def eraseEntry (m : CCoinsMap) (o : OutPoint) : CCoinsMap :=
  m.filter (fun p => !(p.1 == o))

/-- The mutable state of one CCoinsViewCache layer. -/
structure CacheState where
  cacheCoins : CCoinsMap
  cachedCoinsUsage : Nat
  flush_coins_usage : Nat
  flush_count : Nat
  hashBlock : Nat
deriving DecidableEq

def emptyCache : CacheState := ⟨[], 0, 0, 0, 0⟩

/-- CCoinsViewCache::MemoryAdd: account an entry into the usage counters
(the FLUSH-restricted counters only when the entry carries FLUSH). -/
def MemoryAdd (e : CCoinsCacheEntry) (st : CacheState) : CacheState :=
  { st with
    cachedCoinsUsage := st.cachedCoinsUsage + e.coin.DynamicMemoryUsage,
    flush_coins_usage :=
      if e.flush then st.flush_coins_usage + e.coin.DynamicMemoryUsage
      else st.flush_coins_usage,
    flush_count := if e.flush then st.flush_count + 1 else st.flush_count }

/-- CCoinsViewCache::MemorySub: remove an entry from the usage counters. -/
def MemorySub (e : CCoinsCacheEntry) (st : CacheState) : CacheState :=
  { st with
    cachedCoinsUsage := st.cachedCoinsUsage - e.coin.DynamicMemoryUsage,
    flush_coins_usage :=
      if e.flush then st.flush_coins_usage - e.coin.DynamicMemoryUsage
      else st.flush_coins_usage,
    flush_count := if e.flush then st.flush_count - 1 else st.flush_count }

/-- The per-entry attribute computed by CCoinsViewCache::SanityCheck:
DIRTY contributes 1, FRESH 2, spent 4. -/
def SanityAttr (e : CCoinsCacheEntry) : Nat :=
  (if e.dirty then 1 else 0) + (if e.fresh then 2 else 0) +
    (if e.coin.IsSpent then 4 else 0)

/-- The five attribute values SanityCheck accepts. -/
def legalAttrs : Finset Nat := {0, 1, 3, 5, 6}

/-- One pass of CCoinsViewCache::BatchWrite over the incoming (child)
entries, updating this (parent) cache.  The erase flag of the C++ only
controls consumption of the child map and a move optimization; the
effect on the parent cache is identical, so it is not a parameter here. -/
def bwGo : CacheState → CCoinsMap → Except String CacheState
  | p, [] => .ok p
  | p, (o, ce) :: rest =>
    if !ce.dirty then bwGo p rest
    else
      match findEntry p.cacheCoins o with
      | none =>
        if ce.fresh && ce.coin.IsSpent then bwGo p rest
        else
          let e : CCoinsCacheEntry := ⟨ce.coin, true, ce.fresh, ce.flush⟩
          bwGo (MemoryAdd e { p with cacheCoins := setEntry p.cacheCoins o e }) rest
      | some pe =>
        if ce.fresh && !pe.coin.IsSpent then
          .error "FRESH flag misapplied to coin that exists in parent cache"
        else if pe.fresh && ce.coin.IsSpent then
          bwGo { (MemorySub pe p) with cacheCoins := eraseEntry p.cacheCoins o } rest
        else
          let e : CCoinsCacheEntry := ⟨ce.coin, true, pe.fresh, ce.flush⟩
          bwGo (MemoryAdd e
            { (MemorySub pe p) with cacheCoins := setEntry p.cacheCoins o e }) rest

/-- CCoinsViewCache::BatchWrite on the parent state: process the child
entries, then record the child's best block. -/
def BatchWrite (p : CacheState) (mapCoins : CCoinsMap) (hashBlockIn : Nat) :
    Except String CacheState :=
  (bwGo p mapCoins).map (fun q => { q with hashBlock := hashBlockIn })

/-- A two-layer stack: the top cache's backing view is the bottom cache,
whose own backing view is the trivial CCoinsView (GetCoin always false). -/
structure CoinsStack where
  top : CacheState
  bottom : CacheState
deriving DecidableEq

def initialStack : CoinsStack := ⟨emptyCache, emptyCache⟩

/-- The bottom layer answering GetCoin for the top layer: its own base is
the trivial view, so a local miss stays a miss, and GetCoin reports
success only for an unspent local entry. -/
def bottomGetCoin (b : CacheState) (o : OutPoint) : Option Coin :=
  match findEntry b.cacheCoins o with
  | none => none
  | some e => if e.coin.IsSpent then none else some e.coin

/-- CCoinsViewCache::FetchCoin on the top layer: local hit, else consult
the backing view and insert what it returns (FRESH when the fetched coin
is already spent), with MemoryAdd accounting. -/
def FetchCoin (s : CoinsStack) (o : OutPoint) : Option CCoinsCacheEntry × CacheState :=
  match findEntry s.top.cacheCoins o with
  | some e => (some e, s.top)
  | none =>
    match bottomGetCoin s.bottom o with
    | none => (none, s.top)
    | some c =>
      let e : CCoinsCacheEntry := ⟨c, false, c.IsSpent, false⟩
      (some e, MemoryAdd e { s.top with cacheCoins := setEntry s.top.cacheCoins o e })

/-- CCoinsViewCache::AddCoin.  The ftag argument models the debug
flushbits byte stream that may tag the new entry with FLUSH (false when
the instrumentation file is absent).  The entry precondition
assert(!coin.IsSpent()) and the unspent-overwrite logic error are
modelled as Except errors. -/
def AddCoin (o : OutPoint) (c : Coin) (possible_overwrite ftag : Bool)
    (s : CoinsStack) : Except String CoinsStack :=
  if c.IsSpent then .error "AddCoin: assert(!coin.IsSpent()) failed"
  else if c.unspendable then .ok s
  else
    let old := findEntry s.top.cacheCoins o
    let e0 : CCoinsCacheEntry := old.getD ⟨emptyCoin, false, false, false⟩
    let st1 := if old.isSome then MemorySub e0 s.top else s.top
    if !possible_overwrite && !e0.coin.IsSpent then
      .error "Attempted to overwrite an unspent coin (when possible_overwrite is false)"
    else
      let fr : Bool := if possible_overwrite then false else !e0.dirty
      let e1 : CCoinsCacheEntry := ⟨c, true, e0.fresh || fr, ftag⟩
      .ok { s with top := MemoryAdd e1 { st1 with cacheCoins := setEntry st1.cacheCoins o e1 } }

/-- CCoinsViewCache::SpendCoin: fetch the entry (possibly from the
backing view); on a miss return false; erase a FRESH entry entirely;
otherwise set DIRTY, clear FLUSH and clear the coin to the spent state. -/
def SpendCoin (o : OutPoint) (s : CoinsStack) : Bool × CoinsStack :=
  match FetchCoin s o with
  | (none, _) => (false, s)
  | (some e, t1) =>
    let t2 := MemorySub e t1
    if e.fresh then
      (true, { s with top := { t2 with cacheCoins := eraseEntry t2.cacheCoins o } })
    else
      let e1 : CCoinsCacheEntry := ⟨e.coin.Clear, true, e.fresh, false⟩
      (true, { s with top := { t2 with cacheCoins := setEntry t2.cacheCoins o e1 } })

/-- The condition under which Flush picks the FLUSH-restricted flush:
the caller allows it and flush_coins_usage*10 is strictly between
cachedCoinsUsage and cachedCoinsUsage*9. -/
def flushDecision (st : CacheState) (part_ok : Bool) : Bool :=
  part_ok && decide (st.cachedCoinsUsage < 10 * st.flush_coins_usage) &&
    decide (10 * st.flush_coins_usage < 9 * st.cachedCoinsUsage)

/-- CCoinsViewCache::Flush(partial_ok) on a two-layer stack: BatchWrite
all entries into the bottom layer with erase=true (the cache BatchWrite
consumes every child entry and returns true), check that everything was
erased on a full flush, then update the counters: on the FLUSH-restricted
flush subtract flush_coins_usage from cachedCoinsUsage, on a full flush
zero cachedCoinsUsage; in both cases zero flush_coins_usage and
flush_count. -/
def Flush (part_ok : Bool) (s : CoinsStack) : Except String CoinsStack :=
  let st := s.top
  let part := flushDecision st part_ok
  match BatchWrite s.bottom st.cacheCoins st.hashBlock with
  | .error msg => .error msg
  | .ok b1 =>
    let remaining : CCoinsMap := []
    if !part && !remaining.isEmpty then .error "Not all cached coins were erased"
    else
      .ok ⟨{ st with
              cacheCoins := remaining,
              cachedCoinsUsage :=
                if part then st.cachedCoinsUsage - st.flush_coins_usage else 0,
              flush_coins_usage := 0, flush_count := 0 }, b1⟩

/-- The post-BatchWrite pass of CCoinsViewCache::Sync over the local
entries: erase spent entries (subtracting their memory from
cachedCoinsUsage only) and reset the flag set of the rest to empty.
Returns the surviving entries and the total freed memory. -/
def syncFilter : CCoinsMap → CCoinsMap × Nat
  | [] => ([], 0)
  | (o, e) :: rest =>
    let r := syncFilter rest
    if e.coin.IsSpent then (r.1, r.2 + e.coin.DynamicMemoryUsage)
    else ((o, ⟨e.coin, false, false, false⟩) :: r.1, r.2)

/-- CCoinsViewCache::Sync on a two-layer stack: BatchWrite with
erase=false into the bottom layer, then apply the local pass. -/
def Sync (s : CoinsStack) : Except String CoinsStack :=
  match BatchWrite s.bottom s.top.cacheCoins s.top.hashBlock with
  | .error msg => .error msg
  | .ok b1 =>
    let r := syncFilter s.top.cacheCoins
    .ok ⟨{ s.top with
            cacheCoins := r.1,
            cachedCoinsUsage := s.top.cachedCoinsUsage - r.2 }, b1⟩

/-- CCoinsViewCache::Uncache: drop the entry iff its flag set is empty,
subtracting its memory from cachedCoinsUsage. -/
def Uncache (o : OutPoint) (s : CoinsStack) : CoinsStack :=
  match findEntry s.top.cacheCoins o with
  | none => s
  | some e =>
    if !e.dirty && !e.fresh && !e.flush then
      { s with top := { s.top with
          cacheCoins := eraseEntry s.top.cacheCoins o,
          cachedCoinsUsage := s.top.cachedCoinsUsage - e.coin.DynamicMemoryUsage } }
    else s

/-- One operation of the cache API exercised by the invariant claims. -/
inductive CoinsOp where
  | add (o : OutPoint) (c : Coin) (possible_overwrite ftag : Bool)
  | spend (o : OutPoint)
  | write (incoming : CCoinsMap) (hb : Nat)
  | syncOp
  | flushOp (part_ok : Bool)
  | uncacheOp (o : OutPoint)

def applyOp : CoinsOp → CoinsStack → Except String CoinsStack
  | .add o c pow ftag, s => AddCoin o c pow ftag s
  | .spend o, s => .ok (SpendCoin o s).2
  | .write incoming hb, s =>
    (BatchWrite s.top incoming hb).map (fun t1 => { s with top := t1 })
  | .syncOp, s => Sync s
  | .flushOp pok, s => Flush pok s
  | .uncacheOp o, s => .ok (Uncache o s)

def runOps : List CoinsOp → CoinsStack → Except String CoinsStack
  | [], s => .ok s
  | op :: rest, s =>
    match applyOp op s with
    | .error msg => .error msg
    | .ok s1 => runOps rest s1

/-- Recomputation of flush_coins_usage from the table, as the entry
asserts of Flush perform it. -/
def recomputeFlushUsage (st : CacheState) : Nat :=
  (st.cacheCoins.map (fun p => if p.2.flush then p.2.coin.DynamicMemoryUsage else 0)).sum

/-- Recomputation of flush_count from the table. -/
def recomputeFlushCount (st : CacheState) : Nat :=
  st.cacheCoins.countP (fun p => p.2.flush)

/-- A mini-miner cluster transaction: individual (modified) fee,
individual vsize, and the indices of its in-cluster parents. -/
structure Tx where
  m_fee : Int
  m_vsize : Nat
  m_parents : List Nat
deriving DecidableEq

/-- The MiniMiner object after its constructor ran: the cluster vector,
the topological order (ancestors first), the requested outpoints and the
txid-to-index map.  Parent/child pointers are modelled as indices into
m_tx_vec; children lists are derivable from the parent lists and are not
stored separately. -/
structure MiniMiner where
  m_tx_vec : List Tx
  m_top_sort : List Nat
  m_requested_outpoints : List OutPoint
  m_tx_map : List (Nat × Nat)
deriving DecidableEq

def txCount (mm : MiniMiner) : Nat := mm.m_tx_vec.length

def txParents (mm : MiniMiner) (i : Nat) : List Nat :=
  (mm.m_tx_vec.getD i ⟨0, 0, []⟩).m_parents

def txFee (mm : MiniMiner) (i : Nat) : Int :=
  (mm.m_tx_vec.getD i ⟨0, 0, []⟩).m_fee

def txVsize (mm : MiniMiner) (i : Nat) : Int :=
  ((mm.m_tx_vec.getD i ⟨0, 0, []⟩).m_vsize : Int)

/-- Well-formedness established by the MiniMiner constructor: the
topological sort covers exactly the cluster indices (asserted by
Assume(m_top_sort.size() == m_tx_vec.size())), parent indices and
tx-map indices are in range, and every vsize is positive. -/
def MMWf (mm : MiniMiner) : Prop :=
  (∀ i ∈ mm.m_top_sort, i < txCount mm) ∧
  (∀ i ∈ List.range (txCount mm), i ∈ mm.m_top_sort) ∧
  (∀ tx ∈ mm.m_tx_vec, ∀ p ∈ tx.m_parents, p < txCount mm) ∧
  (∀ pr ∈ mm.m_tx_map, pr.2 < txCount mm) ∧
  (∀ tx ∈ mm.m_tx_vec, 0 < tx.m_vsize)

/-- One expansion step of the unmined-ancestor walk of
calculateAncestorValues: add every in-range unmined transaction that is
a parent of a transaction already collected. -/
def ancStep (mm : MiniMiner) (mined : Finset ℕ) (S : Finset ℕ) : Finset ℕ :=
  S ∪ (Finset.range (txCount mm)).filter
    (fun x => x ∉ mined ∧ ∃ y ∈ S, x ∈ txParents mm y)

/-- The ancestor set collected by calculateAncestorValues(tx): the
transaction itself and everything reachable from it along parent edges
through unmined transactions; empty when the transaction is mined. -/
def ancestorSet (mm : MiniMiner) (mined : Finset ℕ) (i : ℕ) : Finset ℕ :=
  (ancStep mm mined)^[txCount mm] (if i ∈ mined then ∅ else {i})

/-- m_ancestor_fee as calculateAncestorValues computes it. -/
def ancestorFee (mm : MiniMiner) (mined : Finset ℕ) (i : ℕ) : Int :=
  (ancestorSet mm mined i).sum (txFee mm)

/-- m_ancestor_vsize as calculateAncestorValues computes it. -/
def ancestorVsize (mm : MiniMiner) (mined : Finset ℕ) (i : ℕ) : Int :=
  (ancestorSet mm mined i).sum (txVsize mm)

/-- Modelled from the spec: CFeeRate and its comparison, which are not
part of the provided sources (policy/feerate).  Per the glossary a
feerate is a fee per unit of virtual size, so the target feerate is an
integer amount of satoshis per vsize unit, the comparison "ancestor
feerate < target" is the exact cross-multiplied comparison
ancestor_fee < target * ancestor_vsize, and target_feerate.GetFee(v) is
target * v.  A transaction is selected when its ancestor feerate is not
below the target. -/
def minePred (mm : MiniMiner) (t : Int) (mined : Finset ℕ) (i : ℕ) : Bool :=
  decide (i ∉ mined) &&
    decide (t * ancestorVsize mm mined i ≤ ancestorFee mm mined i)

/-- The first unmined transaction of a BuildMockTemplate pass over
m_top_sort whose ancestor feerate reaches the target, if any. -/
def findCand (mm : MiniMiner) (t : Int) (mined : Finset ℕ) : Option ℕ :=
  mm.m_top_sort.find? (minePred mm t mined)

/-- The pass-restart loop of BuildMockTemplate: while some transaction
reaches the target feerate, mine it together with its unmined ancestors
and restart the pass.  Fuel bounds the number of mining events; txCount
suffices because every event mines at least one new transaction. -/
def buildLoop (mm : MiniMiner) (t : Int) : Nat → Finset ℕ → Finset ℕ
  | 0, m => m
  | fuel + 1, m =>
    match findCand mm t m with
    | none => m
    | some i => buildLoop mm t fuel (m ∪ ancestorSet mm m i)

/-- MiniMiner::BuildMockTemplate(target_feerate): reset every m_mined
flag and run passes to quiescence; the result is the mined set. -/
def BuildMockTemplate (mm : MiniMiner) (t : Int) : Finset ℕ :=
  buildLoop mm t (txCount mm) ∅

def txMapLookup (mm : MiniMiner) (h : ℕ) : Option ℕ :=
  (mm.m_tx_map.find? (fun p => p.1 == h)).map (·.2)

/-- The bump fee MiniMiner::CalculateBumpFees emits for one requested
outpoint: 0 when the txid is not in the mempool map or its transaction
was mined, else target_feerate.GetFee(ancestor_vsize) - ancestor_fee. -/
def bumpValue (mm : MiniMiner) (t : Int) (mined : Finset ℕ) (o : OutPoint) : Int :=
  match txMapLookup mm o.1 with
  | none => 0
  | some idx =>
    if idx ∈ mined then 0
    else t * ancestorVsize mm mined idx - ancestorFee mm mined idx

/-- MiniMiner::CalculateBumpFees(target_feerate): build the template,
then emit one value per requested outpoint. -/
def CalculateBumpFees (mm : MiniMiner) (t : Int) : List (OutPoint × Int) :=
  mm.m_requested_outpoints.map
    (fun o => (o, bumpValue mm t (BuildMockTemplate mm t) o))

/-- The seeding loop of CalculateTotalBumpFees: for each requested
outpoint present in the map and not yet mined, mark it mined and push it
(push_back, so the head of the todo list is the top of the stack). -/
def totalSeeds (mm : MiniMiner) :
    List OutPoint → List ℕ → Finset ℕ → List ℕ × Finset ℕ
  | [], todo, mined => (todo, mined)
  | o :: rest, todo, mined =>
    match txMapLookup mm o.1 with
    | none => totalSeeds mm rest todo mined
    | some idx =>
      if idx ∈ mined then totalSeeds mm rest todo mined
      else totalSeeds mm rest (idx :: todo) (insert idx mined)

/-- The stack walk of CalculateTotalBumpFees: pop a transaction, record
it (its fee and vsize are accumulated for every pop, with no visited
check on pop), mark it mined, and push its still-unmined parents in
list order (so the last parent is popped first).  Fuel-bounded; none
signals fuel exhaustion and never occurs for the inputs considered
here. -/
def totalWalk (mm : MiniMiner) : Nat → List ℕ → Finset ℕ → List ℕ → Option (List ℕ)
  | _, [], _, acc => some acc
  | 0, _ :: _, _, _ => none
  | fuel + 1, x :: todo, mined, acc =>
    let mined1 := insert x mined
    let pushes := ((txParents mm x).filter (fun p => decide (p ∉ mined1))).reverse
    totalWalk mm fuel (pushes ++ todo) mined1 (x :: acc)

def walkFuel (mm : MiniMiner) : Nat :=
  (txCount mm + 1) * (txCount mm + 1) * (mm.m_requested_outpoints.length + 1)

/-- The list of transactions visited (with multiplicity, in pop order)
by the union walk of CalculateTotalBumpFees. -/
def totalWalkRun (mm : MiniMiner) (t : Int) : Option (List ℕ) :=
  let m0 := BuildMockTemplate mm t
  let sd := totalSeeds mm mm.m_requested_outpoints [] m0
  totalWalk mm (walkFuel mm) sd.1 sd.2 []

/-- MiniMiner::CalculateTotalBumpFees(target_feerate): build the
template, walk the union of unmined ancestors of the requested
outpoints accumulating individual fees and vsizes, and return
target_feerate.GetFee(total_vsize) - total_fees. -/
def CalculateTotalBumpFees (mm : MiniMiner) (t : Int) : Option Int :=
  (totalWalkRun mm t).map
    (fun L => t * (L.map (txVsize mm)).sum - (L.map (txFee mm)).sum)

/-- The sum of the per-outpoint values of CalculateBumpFees. -/
def sumBumpFees (mm : MiniMiner) (t : Int) : Int :=
  ((CalculateBumpFees mm t).map (·.2)).sum

/-- Every entry of a table passes the SanityCheck attribute assertion. -/
def MapOk (m : CCoinsMap) : Prop := ∀ p ∈ m, SanityAttr p.2 ∈ legalAttrs

/-- Both layers of a stack pass the SanityCheck attribute assertion. -/
def StackOk (s : CoinsStack) : Prop :=
  MapOk s.top.cacheCoins ∧ MapOk s.bottom.cacheCoins

instance instDecidableMMWf (mm : MiniMiner) : Decidable (MMWf mm) := by
  unfold MMWf
  infer_instance

/-- A one-transaction cluster used to instantiate the mini-miner
theorems: fee 0, vsize 1, no parents, requested through txid 5. -/
def mm1 : MiniMiner := ⟨[⟨0, 1, []⟩], [0], [(5, 0)], [(5, 0)]⟩

/-- The five-transaction cluster refuting claim C5: two requested
transactions (indices 3 and 4) share the unmined ancestors 1 and 2
(each of individual feerate above the target) and 0. -/
def mmC5 : MiniMiner :=
  ⟨[⟨0, 100, []⟩, ⟨199, 100, [0]⟩, ⟨199, 100, [0]⟩,
    ⟨0, 100, [1, 2]⟩, ⟨0, 100, [1, 2]⟩],
   [0, 1, 2, 3, 4], [(103, 0), (104, 0)], [(103, 3), (104, 4)]⟩

/-- Operation sequence for the C1 witness. -/
def c1ops : List CoinsOp := [.add (0, 0) ⟨false, false, 1⟩ false false]

/-- The stack c1ops produces from the initial stack. -/
def c1res : CoinsStack :=
  ⟨⟨[((0, 0), ⟨⟨false, false, 1⟩, true, true, false⟩)], 1, 0, 0, 0⟩, emptyCache⟩

/-- The failing sequence for claim C2: a child BatchWrite installs a
DIRTY unspent entry carrying FLUSH, then Sync resets its flag set to
empty without touching the FLUSH counters. -/
def c2ops : List CoinsOp :=
  [.write [((0, 0), ⟨⟨false, false, 1⟩, true, false, true⟩)] 0, .syncOp]

/-- Operation sequence of scenario S1 for claim C8. -/
def c8ops : List CoinsOp :=
  [.add (7, 0) ⟨false, false, 3⟩ false false, .spend (7, 0), .flushOp false]

/-- A stack for the C6 witness: 60 bytes cached of which 50 (one entry)
carry FLUSH, so flush(true) picks the FLUSH-restricted flush. -/
def c6stack : CoinsStack :=
  ⟨⟨[((0, 0), ⟨⟨false, false, 10⟩, true, false, false⟩),
     ((1, 0), ⟨⟨false, false, 50⟩, true, false, true⟩)], 60, 50, 1, 0⟩, emptyCache⟩

/-- Parent state for the C7 witness: an unspent entry at (1,0). -/
def c7parent : CacheState :=
  ⟨[((1, 0), ⟨⟨false, false, 2⟩, false, false, false⟩)], 2, 0, 0, 0⟩

/-- Incoming child table for the C7 witness: a DIRTY+FRESH unspent
entry at the same outpoint. -/
def c7incoming : CCoinsMap := [((1, 0), ⟨⟨false, false, 2⟩, true, true, false⟩)]

/-- The stack Flush true c6stack produces. -/
def c6res : CoinsStack :=
  ⟨⟨[], 10, 0, 0, 0⟩,
   ⟨[((0, 0), ⟨⟨false, false, 10⟩, true, false, false⟩),
     ((1, 0), ⟨⟨false, false, 50⟩, true, false, true⟩)], 60, 50, 1, 0⟩⟩

/-- The condition under which processing one child entry in BatchWrite
raises the FRESH-misapplied logic error: the child entry is DIRTY,
carries FRESH, and the parent holds an unspent entry at the outpoint. -/
def FreshTrigger (p : CacheState) (q : OutPoint × CCoinsCacheEntry) : Prop :=
  q.2.dirty = true ∧ q.2.fresh = true ∧
    ∃ pe, findEntry p.cacheCoins q.1 = some pe ∧ pe.coin.IsSpent = false

/-- A two-transaction chain mined entirely at feerate 1, for the C9
witness. -/
def mm9 : MiniMiner := ⟨[⟨5, 1, []⟩, ⟨5, 1, [0]⟩], [0, 1], [], []⟩

theorem memoryAdd_cacheCoins (e : CCoinsCacheEntry) (st : CacheState) :
    (MemoryAdd e st).cacheCoins = st.cacheCoins := rfl

theorem memorySub_cacheCoins (e : CCoinsCacheEntry) (st : CacheState) :
    (MemorySub e st).cacheCoins = st.cacheCoins := rfl

theorem mem_setEntry {m : CCoinsMap} {o : OutPoint} {e : CCoinsCacheEntry}
    {p : OutPoint × CCoinsCacheEntry} (hp : p ∈ setEntry m o e) :
    p = (o, e) ∨ p ∈ m := by
  induction m with
  | nil => simpa [setEntry] using hp
  | cons q m ih =>
    by_cases h : q.1 == o
    · simp only [setEntry, if_pos h, List.mem_cons] at hp
      rcases hp with hp | hp
      · exact Or.inl hp
      · exact Or.inr (List.mem_cons_of_mem q hp)
    · simp only [setEntry, if_neg h, List.mem_cons] at hp
      rcases hp with hp | hp
      · exact Or.inr (by simp [hp])
      · rcases ih hp with hp | hp
        · exact Or.inl hp
        · exact Or.inr (List.mem_cons_of_mem q hp)

theorem mem_eraseEntry {m : CCoinsMap} {o : OutPoint}
    {p : OutPoint × CCoinsCacheEntry} (hp : p ∈ eraseEntry m o) : p ∈ m :=
  List.mem_of_mem_filter hp

theorem findEntry_cons (q : OutPoint × CCoinsCacheEntry) (m : CCoinsMap) (o : OutPoint) :
    findEntry (q :: m) o = if q.1 == o then some q.2 else findEntry m o := by
  by_cases h : q.1 == o
  · simp [findEntry, List.find?_cons_of_pos, h]
  · simp only [Bool.not_eq_true] at h
    simp [findEntry, List.find?_cons_of_neg, h]

theorem findEntry_setEntry_self (m : CCoinsMap) (o : OutPoint) (e : CCoinsCacheEntry) :
    findEntry (setEntry m o e) o = some e := by
  induction m with
  | nil => simp [setEntry, findEntry]
  | cons q m ih =>
    by_cases h : q.1 = o
    · rw [setEntry, if_pos (by simpa using h), findEntry_cons]
      simp
    · rw [setEntry, if_neg (by simpa using h), findEntry_cons,
        if_neg (by simpa using h)]
      exact ih

theorem findEntry_setEntry_ne (m : CCoinsMap) {o o' : OutPoint}
    (e : CCoinsCacheEntry) (h : o' ≠ o) :
    findEntry (setEntry m o e) o' = findEntry m o' := by
  induction m with
  | nil =>
    rw [setEntry, findEntry_cons, if_neg (by simpa using Ne.symm h)]
  | cons q m ih =>
    by_cases hq : q.1 = o
    · rw [setEntry, if_pos (by simpa using hq), findEntry_cons,
        if_neg (by simpa using Ne.symm h), findEntry_cons,
        if_neg (by simp [hq]; exact Ne.symm h)]
    · rw [setEntry, if_neg (by simpa using hq), findEntry_cons, findEntry_cons, ih]

theorem findEntry_eraseEntry_self (m : CCoinsMap) (o : OutPoint) :
    findEntry (eraseEntry m o) o = none := by
  unfold findEntry
  rw [List.find?_eq_none.mpr, Option.map_none']
  intro p hp
  have := List.of_mem_filter hp
  simpa using this

theorem findEntry_eraseEntry_ne (m : CCoinsMap) {o o' : OutPoint} (h : o' ≠ o) :
    findEntry (eraseEntry m o) o' = findEntry m o' := by
  induction m with
  | nil => rfl
  | cons q m ih =>
    by_cases hq : q.1 = o
    · have hb : (q.1 == o) = true := by simp [hq]
      have hq' : (q.1 == o') = false := by
        simp [hq, beq_eq_false_iff_ne]
        exact Ne.symm h
      rw [show eraseEntry (q :: m) o = eraseEntry m o by
          simp [eraseEntry, List.filter, hb]]
      rw [ih, findEntry_cons, if_neg (by simp [hq'])]
    · have hb : (q.1 == o) = false := by simp [hq]
      rw [show eraseEntry (q :: m) o = q :: eraseEntry m o by
          simp [eraseEntry, List.filter, hb]]
      rw [findEntry_cons, findEntry_cons, ih]

theorem attr_ok_dirty (e : CCoinsCacheEntry) (hd : e.dirty = true)
    (hf : e.fresh = true → e.coin.IsSpent = false) :
    SanityAttr e ∈ legalAttrs := by
  rcases e with ⟨⟨cs, cu, cm⟩, d, f, fl⟩
  simp only at hd
  subst hd
  simp only [Coin.IsSpent] at hf
  cases f
  · cases cs <;> simp [SanityAttr, legalAttrs, Coin.IsSpent]
  · have : cs = false := hf rfl
    subst this
    simp [SanityAttr, legalAttrs, Coin.IsSpent]

theorem attr_ok_nondirty (e : CCoinsCacheEntry) (hd : e.dirty = false)
    (hf : e.fresh = e.coin.IsSpent) : SanityAttr e ∈ legalAttrs := by
  rcases e with ⟨⟨cs, cu, cm⟩, d, f, fl⟩
  simp only at hd
  subst hd
  simp only [Coin.IsSpent] at hf
  cases cs <;> simp [SanityAttr, legalAttrs, Coin.IsSpent, hf]

theorem mapOk_set {m : CCoinsMap} {o : OutPoint} {e : CCoinsCacheEntry}
    (hm : MapOk m) (he : SanityAttr e ∈ legalAttrs) : MapOk (setEntry m o e) := by
  intro p hp
  rcases mem_setEntry hp with h | h
  · rw [h]; exact he
  · exact hm p h

theorem mapOk_erase {m : CCoinsMap} {o : OutPoint} (hm : MapOk m) :
    MapOk (eraseEntry m o) := fun p hp => hm p (mem_eraseEntry hp)

theorem mapOk_nil : MapOk [] := by intro p hp; simp at hp

theorem bwGo_ok {l : CCoinsMap} {p q : CacheState}
    (hp : MapOk p.cacheCoins) (h : bwGo p l = .ok q) : MapOk q.cacheCoins := by
  induction l generalizing p with
  | nil =>
    rw [bwGo] at h
    cases h
    exact hp
  | cons pr rest ih =>
    obtain ⟨o, ce⟩ := pr
    rw [bwGo] at h
    by_cases hd : ce.dirty
    · rw [if_neg (by simp [hd])] at h
      cases hfe : findEntry p.cacheCoins o with
      | none =>
        rw [hfe] at h
        simp only at h
        by_cases hdrop : (ce.fresh && ce.coin.IsSpent) = true
        · rw [if_pos hdrop] at h
          exact ih hp h
        · rw [if_neg hdrop] at h
          refine ih ?_ h
          rw [memoryAdd_cacheCoins]
          refine mapOk_set hp (attr_ok_dirty _ rfl ?_)
          intro hf
          have hf' : ce.fresh = true := hf
          cases hsp : ce.coin.IsSpent
          · rfl
          · exact absurd (by simp [hf', hsp]) hdrop
      | some pe =>
        rw [hfe] at h
        simp only at h
        by_cases herr : (ce.fresh && !pe.coin.IsSpent) = true
        · rw [if_pos herr] at h
          cases h
        · rw [if_neg herr] at h
          by_cases hdel : (pe.fresh && ce.coin.IsSpent) = true
          · rw [if_pos hdel] at h
            refine ih ?_ h
            simp only [memorySub_cacheCoins]
            exact mapOk_erase hp
          · rw [if_neg hdel] at h
            refine ih ?_ h
            rw [memoryAdd_cacheCoins]
            refine mapOk_set hp (attr_ok_dirty _ rfl ?_)
            intro hf
            have hf' : pe.fresh = true := hf
            cases hsp : ce.coin.IsSpent
            · rfl
            · exact absurd (by simp [hf', hsp]) hdel
    · rw [if_pos (by simp [hd])] at h
      exact ih hp h

theorem batchWrite_ok {p : CacheState} {l : CCoinsMap} {hb : Nat} {q : CacheState}
    (hp : MapOk p.cacheCoins) (h : BatchWrite p l hb = .ok q) : MapOk q.cacheCoins := by
  unfold BatchWrite at h
  cases hg : bwGo p l with
  | error msg => rw [hg] at h; cases h
  | ok q0 =>
    rw [hg] at h
    cases h
    exact bwGo_ok (q := q0) hp hg

theorem findEntry_mem {m : CCoinsMap} {o : OutPoint} {e : CCoinsCacheEntry}
    (h : findEntry m o = some e) : ∃ q ∈ m, q.2 = e := by
  unfold findEntry at h
  cases hf : m.find? (fun p => p.1 == o) with
  | none => rw [hf] at h; cases h
  | some q =>
    rw [hf] at h
    cases h
    exact ⟨q, List.mem_of_find?_eq_some hf, rfl⟩

theorem fetchCoin_ok {s : CoinsStack} {o : OutPoint}
    (hs : MapOk s.top.cacheCoins) : MapOk (FetchCoin s o).2.cacheCoins := by
  unfold FetchCoin
  cases hfe : findEntry s.top.cacheCoins o with
  | some e => exact hs
  | none =>
    cases hbg : bottomGetCoin s.bottom o with
    | none => exact hs
    | some c =>
      simp only [memoryAdd_cacheCoins]
      exact mapOk_set hs (attr_ok_nondirty _ rfl rfl)

theorem fetchCoin_entry_ok {s : CoinsStack} {o : OutPoint} {e : CCoinsCacheEntry}
    (hs : MapOk s.top.cacheCoins) (h : (FetchCoin s o).1 = some e) :
    SanityAttr e ∈ legalAttrs := by
  unfold FetchCoin at h
  cases hfe : findEntry s.top.cacheCoins o with
  | some e0 =>
    rw [hfe] at h
    simp only at h
    cases h
    obtain ⟨q, hq, hq2⟩ := findEntry_mem hfe
    rw [← hq2]
    exact hs q hq
  | none =>
    rw [hfe] at h
    cases hbg : bottomGetCoin s.bottom o with
    | none => rw [hbg] at h; cases h
    | some c =>
      rw [hbg] at h
      simp only at h
      cases h
      exact attr_ok_nondirty _ rfl rfl

theorem addCoin_ok {o : OutPoint} {c : Coin} {pow ftag : Bool} {s s' : CoinsStack}
    (hs : StackOk s) (h : AddCoin o c pow ftag s = .ok s') : StackOk s' := by
  unfold AddCoin at h
  by_cases h1 : c.IsSpent = true
  · rw [if_pos h1] at h
    cases h
  · rw [if_neg h1] at h
    by_cases h2 : c.unspendable = true
    · rw [if_pos h2] at h
      cases h
      exact hs
    · rw [if_neg h2] at h
      simp only at h
      split_ifs at h <;> try cases h
      all_goals (
        refine ⟨fun p hp => ?_, hs.2⟩
        simp only [memoryAdd_cacheCoins, memorySub_cacheCoins] at hp
        rcases mem_setEntry hp with hp | hp
        · rw [hp]
          refine attr_ok_dirty _ rfl fun _ => ?_
          simp only [Bool.not_eq_true] at h1
          exact h1
        · exact hs.1 p hp)

theorem spendCoin_ok {o : OutPoint} {s : CoinsStack}
    (hs : StackOk s) : StackOk (SpendCoin o s).2 := by
  have hft : MapOk (FetchCoin s o).2.cacheCoins := fetchCoin_ok hs.1
  unfold SpendCoin
  rcases hfc : FetchCoin s o with ⟨r, t1⟩
  rw [hfc] at hft
  cases r with
  | none => exact hs
  | some e =>
    dsimp only
    by_cases hfr : e.fresh = true
    · rw [if_pos hfr]
      exact ⟨fun p hp => hft p (mem_eraseEntry hp), hs.2⟩
    · rw [if_neg hfr]
      refine ⟨?_, hs.2⟩
      intro p hp
      simp only [memorySub_cacheCoins] at hp
      rcases mem_setEntry hp with hp | hp
      · rw [hp]
        refine attr_ok_dirty _ rfl ?_
        intro hf
        exact absurd hf hfr
      · exact hft p hp

theorem syncFilter_ok (m : CCoinsMap) : MapOk (syncFilter m).1 := by
  induction m with
  | nil => exact mapOk_nil
  | cons q rest ih =>
    obtain ⟨o, e⟩ := q
    rw [syncFilter]
    by_cases hsp : e.coin.IsSpent = true
    · rw [if_pos hsp]
      exact ih
    · rw [if_neg hsp]
      intro p hp
      rcases List.mem_cons.mp hp with hp | hp
      · rw [hp]
        refine attr_ok_nondirty _ rfl ?_
        simp only [Bool.not_eq_true] at hsp
        exact hsp.symm
      · exact ih p hp

theorem sync_ok {s s' : CoinsStack} (hs : StackOk s) (h : Sync s = .ok s') :
    StackOk s' := by
  unfold Sync at h
  cases hg : BatchWrite s.bottom s.top.cacheCoins s.top.hashBlock with
  | error msg => rw [hg] at h; cases h
  | ok b1 =>
    rw [hg] at h
    cases h
    exact ⟨syncFilter_ok _, batchWrite_ok hs.2 hg⟩

theorem flush_ok {pok : Bool} {s s' : CoinsStack} (hs : StackOk s)
    (h : Flush pok s = .ok s') : StackOk s' := by
  unfold Flush at h
  simp only at h
  cases hg : BatchWrite s.bottom s.top.cacheCoins s.top.hashBlock with
  | error msg => rw [hg] at h; cases h
  | ok b1 =>
    rw [hg] at h
    simp only [List.isEmpty_nil, Bool.not_true, Bool.and_false, Bool.false_eq_true,
      if_false, reduceIte] at h
    cases h
    exact ⟨mapOk_nil, batchWrite_ok hs.2 hg⟩

theorem uncache_ok {o : OutPoint} {s : CoinsStack} (hs : StackOk s) :
    StackOk (Uncache o s) := by
  unfold Uncache
  cases hf : findEntry s.top.cacheCoins o with
  | none => exact hs
  | some e =>
    dsimp only
    by_cases hfl : (!e.dirty && !e.fresh && !e.flush) = true
    · rw [if_pos hfl]
      exact ⟨fun p hp => hs.1 p (mem_eraseEntry hp), hs.2⟩
    · rw [if_neg hfl]
      exact hs

theorem applyOp_ok {op : CoinsOp} {s s' : CoinsStack} (hs : StackOk s)
    (h : applyOp op s = .ok s') : StackOk s' := by
  cases op with
  | add o c pow ftag => exact addCoin_ok hs h
  | spend o =>
    simp only [applyOp] at h
    cases h
    exact spendCoin_ok hs
  | write incoming hb =>
    simp only [applyOp] at h
    cases hg : BatchWrite s.top incoming hb with
    | error msg => rw [hg] at h; cases h
    | ok t1 =>
      rw [hg] at h
      cases h
      exact ⟨batchWrite_ok hs.1 hg, hs.2⟩
  | syncOp => exact sync_ok hs h
  | flushOp pok => exact flush_ok hs h
  | uncacheOp o =>
    simp only [applyOp] at h
    cases h
    exact uncache_ok hs

theorem runOps_ok {ops : List CoinsOp} {s s' : CoinsStack} (hs : StackOk s)
    (h : runOps ops s = .ok s') : StackOk s' := by
  induction ops generalizing s with
  | nil =>
    rw [runOps] at h
    cases h
    exact hs
  | cons op rest ih =>
    rw [runOps] at h
    cases ha : applyOp op s with
    | error msg => rw [ha] at h; cases h
    | ok s1 =>
      rw [ha] at h
      exact ih (applyOp_ok hs ha) h

theorem initialStack_ok : StackOk initialStack := ⟨mapOk_nil, mapOk_nil⟩

/-- C1: for every cache entry of a CCoinsViewCache, after any sequence
of add_coin / spend_coin / batch_write / sync / flush / uncache
operations starting from an empty two-layer stack, the attribute
attr = (DIRTY?1) + (FRESH?2) + (spent?4) lies in {0, 1, 3, 5, 6}, so the
values {2, 4, 7} never occur, for the entries of both layers. -/
theorem claim_C1 (ops : List CoinsOp) (s' : CoinsStack)
    (h : runOps ops initialStack = .ok s') :
    (∀ p ∈ s'.top.cacheCoins, SanityAttr p.2 ∈ legalAttrs) ∧
    (∀ p ∈ s'.bottom.cacheCoins, SanityAttr p.2 ∈ legalAttrs) :=
  runOps_ok initialStack_ok h

/-- Witness for C1 at the concrete sequence c1ops. -/
theorem claim_C1_witness :
    (∀ p ∈ c1res.top.cacheCoins, SanityAttr p.2 ∈ legalAttrs) ∧
    (∀ p ∈ c1res.bottom.cacheCoins, SanityAttr p.2 ∈ legalAttrs) :=
  claim_C1 c1ops c1res (by rfl)

/-- C6: Flush(partial_ok) performs a partial flush iff partial_ok holds
and flush_coins_usage is strictly between 10 and 90 percent of
cachedCoinsUsage; a partial flush subtracts flush_coins_usage from
cachedCoinsUsage while a full flush zeroes it, and both zero
flush_coins_usage and flush_count. -/
theorem claim_C6 (s s' : CoinsStack) (part_ok : Bool)
    (h : Flush part_ok s = .ok s') :
    s'.top.cachedCoinsUsage =
      (if part_ok = true ∧
          s.top.cachedCoinsUsage < 10 * s.top.flush_coins_usage ∧
          10 * s.top.flush_coins_usage < 9 * s.top.cachedCoinsUsage
        then s.top.cachedCoinsUsage - s.top.flush_coins_usage else 0) ∧
    s'.top.flush_coins_usage = 0 ∧ s'.top.flush_count = 0 := by
  unfold Flush at h
  simp only at h
  cases hg : BatchWrite s.bottom s.top.cacheCoins s.top.hashBlock with
  | error msg => rw [hg] at h; cases h
  | ok b1 =>
    rw [hg] at h
    simp only [List.isEmpty_nil, Bool.not_true, Bool.and_false, Bool.false_eq_true,
      if_false, reduceIte] at h
    cases h
    refine ⟨?_, rfl, rfl⟩
    by_cases hd : flushDecision s.top part_ok = true
    · have hd' : part_ok = true ∧
          s.top.cachedCoinsUsage < 10 * s.top.flush_coins_usage ∧
          10 * s.top.flush_coins_usage < 9 * s.top.cachedCoinsUsage := by
        simpa [flushDecision, Bool.and_eq_true, decide_eq_true_eq, and_assoc] using hd
      simp only [if_pos hd, if_pos hd']
    · have hd' : ¬(part_ok = true ∧
          s.top.cachedCoinsUsage < 10 * s.top.flush_coins_usage ∧
          10 * s.top.flush_coins_usage < 9 * s.top.cachedCoinsUsage) := by
        intro hc
        exact hd (by simp [flushDecision, Bool.and_eq_true, decide_eq_true_eq, and_assoc,
          hc.1, hc.2.1, hc.2.2])
      simp only [if_neg hd, if_neg hd']

/-- Witness for C6: a 60-byte cache with 50 FLUSH-tagged bytes picks the
partial flush and the counters update as claimed. -/
theorem claim_C6_witness :
    c6res.top.cachedCoinsUsage =
      (if (true = true ∧
          c6stack.top.cachedCoinsUsage < 10 * c6stack.top.flush_coins_usage ∧
          10 * c6stack.top.flush_coins_usage < 9 * c6stack.top.cachedCoinsUsage)
        then c6stack.top.cachedCoinsUsage - c6stack.top.flush_coins_usage else 0) ∧
    c6res.top.flush_coins_usage = 0 ∧ c6res.top.flush_count = 0 :=
  claim_C6 c6stack c6res true (by rfl)

theorem freshTrigger_congr {p p' : CacheState} {q : OutPoint × CCoinsCacheEntry}
    (h : findEntry p'.cacheCoins q.1 = findEntry p.cacheCoins q.1) :
    FreshTrigger p' q ↔ FreshTrigger p q := by
  unfold FreshTrigger
  rw [h]

theorem exists_trigger_congr {rest : CCoinsMap} {p p' : CacheState}
    (h : ∀ q ∈ rest, findEntry p'.cacheCoins q.1 = findEntry p.cacheCoins q.1) :
    (∃ q ∈ rest, FreshTrigger p' q) ↔ ∃ q ∈ rest, FreshTrigger p q := by
  constructor
  · rintro ⟨q, hq, ht⟩
    exact ⟨q, hq, (freshTrigger_congr (h q hq)).mp ht⟩
  · rintro ⟨q, hq, ht⟩
    exact ⟨q, hq, (freshTrigger_congr (h q hq)).mpr ht⟩

theorem exists_trigger_cons {p : CacheState} {o : OutPoint} {ce : CCoinsCacheEntry}
    {rest : CCoinsMap} (hhead : ¬FreshTrigger p (o, ce)) :
    (∃ q ∈ rest, FreshTrigger p q) ↔ ∃ q ∈ (o, ce) :: rest, FreshTrigger p q := by
  constructor
  · rintro ⟨q, hq, ht⟩
    exact ⟨q, List.mem_cons_of_mem _ hq, ht⟩
  · rintro ⟨q, hq, ht⟩
    rcases List.mem_cons.mp hq with rfl | hq
    · exact absurd ht hhead
    · exact ⟨q, hq, ht⟩

theorem bwGo_freshErr {l : CCoinsMap} {p : CacheState}
    (hnd : (l.map Prod.fst).Nodup) :
    bwGo p l = .error "FRESH flag misapplied to coin that exists in parent cache" ↔
      ∃ q ∈ l, FreshTrigger p q := by
  induction l generalizing p with
  | nil => simp [bwGo]
  | cons pr rest ih =>
    obtain ⟨o, ce⟩ := pr
    have hnd1 : (o :: rest.map Prod.fst).Nodup := by simpa using hnd
    obtain ⟨ho, hnd'⟩ := List.nodup_cons.mp hnd1
    have hne : ∀ q ∈ rest, q.1 ≠ o := by
      intro q hq he
      exact ho (he ▸ List.mem_map_of_mem Prod.fst hq)
    rw [bwGo]
    by_cases hd : ce.dirty = true
    · rw [if_neg (by simp [hd])]
      cases hfe : findEntry p.cacheCoins o with
      | none =>
        dsimp only
        have hhead : ¬FreshTrigger p (o, ce) := by
          rintro ⟨-, -, pe, hpe, -⟩
          rw [hfe] at hpe
          cases hpe
        by_cases hdrop : (ce.fresh && ce.coin.IsSpent) = true
        · rw [if_pos hdrop, ih hnd']
          exact exists_trigger_cons hhead
        · rw [if_neg hdrop, ih hnd']
          refine Iff.trans (exists_trigger_congr fun q hq => ?_) (exists_trigger_cons hhead)
          exact findEntry_setEntry_ne _ _ (hne q hq)
      | some pe =>
        dsimp only
        by_cases herr : (ce.fresh && !pe.coin.IsSpent) = true
        · rw [if_pos herr]
          simp only [Bool.and_eq_true, Bool.not_eq_true'] at herr
          constructor
          · intro _
            exact ⟨(o, ce), List.mem_cons_self _ _, hd, herr.1, pe, hfe, herr.2⟩
          · intro _
            rfl
        · rw [if_neg herr]
          have hhead : ¬FreshTrigger p (o, ce) := by
            rintro ⟨-, hf, pe', hpe', hsp'⟩
            have hf2 : ce.fresh = true := hf
            rw [hfe] at hpe'
            cases hpe'
            exact herr (by simp [hf2, Bool.not_eq_true', hsp'])
          by_cases hdel : (pe.fresh && ce.coin.IsSpent) = true
          · rw [if_pos hdel, ih hnd']
            refine Iff.trans (exists_trigger_congr fun q hq => ?_) (exists_trigger_cons hhead)
            exact findEntry_eraseEntry_ne _ (hne q hq)
          · rw [if_neg hdel, ih hnd']
            refine Iff.trans (exists_trigger_congr fun q hq => ?_) (exists_trigger_cons hhead)
            exact findEntry_setEntry_ne _ _ (hne q hq)
    · rw [if_pos (by simp [hd]), ih hnd']
      refine exists_trigger_cons ?_
      rintro ⟨hdd, -, -⟩
      exact hd hdd

/-- C7: BatchWrite into a parent cache raises the FRESH-misapplied logic
error exactly when some DIRTY child entry carries FRESH while the parent
already holds an unspent entry for the same outpoint, and in no other
case. -/
theorem claim_C7 (p : CacheState) (incoming : CCoinsMap) (hb : Nat)
    (hnd : (incoming.map Prod.fst).Nodup) :
    BatchWrite p incoming hb =
        .error "FRESH flag misapplied to coin that exists in parent cache" ↔
      ∃ q ∈ incoming, FreshTrigger p q := by
  rw [show (BatchWrite p incoming hb =
      .error "FRESH flag misapplied to coin that exists in parent cache") ↔
      (bwGo p incoming =
        .error "FRESH flag misapplied to coin that exists in parent cache") by
    unfold BatchWrite
    cases hg : bwGo p incoming <;> simp [Except.map]]
  exact bwGo_freshErr hnd

/-- Witness for C7: a single DIRTY+FRESH child entry over a parent with
an unspent entry at the same outpoint raises the error. -/
theorem claim_C7_witness :
    BatchWrite c7parent c7incoming 0 =
      .error "FRESH flag misapplied to coin that exists in parent cache" :=
  (claim_C7 c7parent c7incoming 0 (by decide)).mpr
    ⟨((1, 0), ⟨⟨false, false, 2⟩, true, true, false⟩), by decide, rfl, rfl,
      ⟨⟨false, false, 2⟩, false, false, false⟩, by rfl, rfl⟩

theorem fetchCoin_local {s : CoinsStack} {o : OutPoint} {e : CCoinsCacheEntry}
    (h : findEntry s.top.cacheCoins o = some e) : FetchCoin s o = (some e, s.top) := by
  unfold FetchCoin
  rw [h]

theorem fetchCoin_miss {s : CoinsStack} {o : OutPoint}
    (h1 : findEntry s.top.cacheCoins o = none)
    (h2 : bottomGetCoin s.bottom o = none) : FetchCoin s o = (none, s.top) := by
  unfold FetchCoin
  rw [h1, h2]

theorem spendCoin_true {s : CoinsStack} {o : OutPoint} {e : CCoinsCacheEntry}
    (h : (FetchCoin s o).1 = some e) : (SpendCoin o s).1 = true := by
  unfold SpendCoin
  rcases hfc : FetchCoin s o with ⟨r, t1⟩
  rw [hfc] at h
  cases r with
  | none => simp at h
  | some e' =>
    dsimp only
    by_cases hfr : e'.fresh = true
    · rw [if_pos hfr]
    · rw [if_neg hfr]

/-- C8: spend_coin on an entry carrying FRESH erases the entry entirely
with no write to the backing layer; in scenario S1 the sequence
add_coin((7,0), C1, false); spend_coin((7,0)); flush(false) on an empty
two-layer stack leaves the bottom layer empty; a miss returns false;
otherwise the entry is set DIRTY, FLUSH is cleared and the coin is
cleared to the spent state. -/
theorem claim_C8 :
    (∀ (s : CoinsStack) (o : OutPoint) (e : CCoinsCacheEntry),
        findEntry s.top.cacheCoins o = some e → e.fresh = true →
        findEntry (SpendCoin o s).2.top.cacheCoins o = none ∧
          (SpendCoin o s).2.bottom = s.bottom) ∧
    (∃ s', runOps c8ops initialStack = .ok s' ∧ s'.bottom.cacheCoins = []) ∧
    (∀ (s : CoinsStack) (o : OutPoint),
        findEntry s.top.cacheCoins o = none → bottomGetCoin s.bottom o = none →
        (SpendCoin o s).1 = false) ∧
    (∀ (s : CoinsStack) (o : OutPoint) (e : CCoinsCacheEntry),
        findEntry s.top.cacheCoins o = some e → e.fresh = false →
        (SpendCoin o s).1 = true ∧
        findEntry (SpendCoin o s).2.top.cacheCoins o =
          some ⟨e.coin.Clear, true, e.fresh, false⟩) := by
  refine ⟨?_, ⟨initialStack, rfl, rfl⟩, ?_, ?_⟩
  · intro s o e hf hfr
    unfold SpendCoin
    rw [fetchCoin_local hf]
    dsimp only
    rw [if_pos hfr]
    exact ⟨findEntry_eraseEntry_self _ o, rfl⟩
  · intro s o h1 h2
    unfold SpendCoin
    rw [fetchCoin_miss h1 h2]
  · intro s o e hf hfr
    unfold SpendCoin
    rw [fetchCoin_local hf]
    dsimp only
    rw [if_neg (by simp [hfr])]
    exact ⟨rfl, findEntry_setEntry_self _ o _⟩

/-- Witness for C8 at concrete inputs: a FRESH entry is erased by
spend_coin, scenario S1 leaves the bottom layer empty, a miss on the
empty stack returns false, and spending a non-FRESH entry leaves a
DIRTY spent entry with FLUSH cleared. -/
theorem claim_C8_witness :
    (findEntry (SpendCoin (0, 0) c1res).2.top.cacheCoins (0, 0) = none ∧
      (SpendCoin (0, 0) c1res).2.bottom = c1res.bottom) ∧
    (∃ s', runOps c8ops initialStack = .ok s' ∧ s'.bottom.cacheCoins = []) ∧
    (SpendCoin (9, 9) initialStack).1 = false ∧
    ((SpendCoin (0, 0) c6stack).1 = true ∧
      findEntry (SpendCoin (0, 0) c6stack).2.top.cacheCoins (0, 0) =
        some ⟨(⟨⟨false, false, 10⟩, true, false, false⟩ : CCoinsCacheEntry).coin.Clear,
          true, false, false⟩) :=
  ⟨claim_C8.1 c1res (0, 0) ⟨⟨false, false, 1⟩, true, true, false⟩ rfl rfl,
    claim_C8.2.1,
    claim_C8.2.2.1 initialStack (9, 9) rfl rfl,
    claim_C8.2.2.2 c6stack (0, 0) ⟨⟨false, false, 10⟩, true, false, false⟩ rfl rfl⟩

/-- C10: SpendCoin returns true whenever an entry for the outpoint is
found locally or fetched from the backing view, even if that entry is
already spent; spending twice in a row returns true both times, the
first call leaving a DIRTY spent entry in the table. -/
theorem claim_C10 :
    (∀ (s : CoinsStack) (o : OutPoint) (e : CCoinsCacheEntry),
        (FetchCoin s o).1 = some e → (SpendCoin o s).1 = true) ∧
    (∀ (s : CoinsStack) (o : OutPoint) (e : CCoinsCacheEntry),
        findEntry s.top.cacheCoins o = some e → e.fresh = false →
        (SpendCoin o s).1 = true ∧
        (∃ e', findEntry (SpendCoin o s).2.top.cacheCoins o = some e' ∧
            e'.coin.IsSpent = true ∧ e'.dirty = true) ∧
        (SpendCoin o ((SpendCoin o s).2)).1 = true) := by
  constructor
  · intro s o e h
    exact spendCoin_true h
  · intro s o e hf hfr
    have hone : findEntry (SpendCoin o s).2.top.cacheCoins o =
        some ⟨e.coin.Clear, true, e.fresh, false⟩ := by
      unfold SpendCoin
      rw [fetchCoin_local hf]
      dsimp only
      rw [if_neg (by simp [hfr])]
      exact findEntry_setEntry_self _ o _
    refine ⟨spendCoin_true (by rw [fetchCoin_local hf]), ?_, ?_⟩
    · exact ⟨_, hone, rfl, rfl⟩
    · exact spendCoin_true (by rw [fetchCoin_local hone])

/-- Witness for C10: spending the unspent entry of c6stack twice returns
true both times, the intermediate state holding a DIRTY spent entry. -/
theorem claim_C10_witness :
    (SpendCoin (0, 0) c6stack).1 = true ∧
    ((SpendCoin (0, 0) c6stack).1 = true ∧
      (∃ e', findEntry (SpendCoin (0, 0) c6stack).2.top.cacheCoins (0, 0) = some e' ∧
          e'.coin.IsSpent = true ∧ e'.dirty = true) ∧
      (SpendCoin (0, 0) ((SpendCoin (0, 0) c6stack).2)).1 = true) :=
  ⟨claim_C10.1 c6stack (0, 0) ⟨⟨false, false, 10⟩, true, false, false⟩ (by rfl),
    claim_C10.2 c6stack (0, 0) ⟨⟨false, false, 10⟩, true, false, false⟩ rfl rfl⟩

/-- C2 as stated fails on the code: after a child BatchWrite installs a
DIRTY+FLUSH unspent entry and Sync resets its flag set to empty, the
flush counters still count the entry although no table entry carries
FLUSH, diverging from a full recomputation (the recompute assertions at
the top of Flush would fail on this state). -/
theorem claim_C2_bug :
    ∃ s', runOps c2ops initialStack = .ok s' ∧
      s'.top.flush_count = 1 ∧ recomputeFlushCount s'.top = 0 ∧
      s'.top.flush_coins_usage = 1 ∧ recomputeFlushUsage s'.top = 0 :=
  ⟨⟨⟨[((0, 0), ⟨⟨false, false, 1⟩, false, false, false⟩)], 1, 1, 1, 0⟩,
    ⟨[((0, 0), ⟨⟨false, false, 1⟩, true, false, true⟩)], 1, 1, 1, 0⟩⟩,
    rfl, rfl, rfl, rfl, rfl⟩

theorem iterate_bdd {f : Finset ℕ → Finset ℕ} {R : Finset ℕ}
    (hbdd : ∀ S, S ⊆ R → f S ⊆ R) {S0 : Finset ℕ} (h0 : S0 ⊆ R) :
    ∀ k, f^[k] S0 ⊆ R := by
  intro k
  induction k with
  | zero => simpa using h0
  | succ k ih =>
    rw [Function.iterate_succ_apply']
    exact hbdd _ ih

theorem iterate_infl_subset {f : Finset ℕ → Finset ℕ} (hinfl : ∀ S, S ⊆ f S)
    (S0 : Finset ℕ) : ∀ k, S0 ⊆ f^[k] S0 := by
  intro k
  induction k with
  | zero => simp
  | succ k ih =>
    rw [Function.iterate_succ_apply']
    exact ih.trans (hinfl _)

theorem iterate_fix_of_eq {f : Finset ℕ → Finset ℕ} {S0 : Finset ℕ} {j : ℕ}
    (hj : f (f^[j] S0) = f^[j] S0) :
    ∀ m, j ≤ m → f^[m] S0 = f^[j] S0 := by
  intro m hm
  refine Nat.le_induction rfl ?_ m hm
  intro k _ ih
  rw [Function.iterate_succ_apply', ih, hj]

theorem iterate_fixpoint {f : Finset ℕ → Finset ℕ} (hinfl : ∀ S, S ⊆ f S)
    {R : Finset ℕ} (hbdd : ∀ S, S ⊆ R → f S ⊆ R) {S0 : Finset ℕ} (h0 : S0 ⊆ R) :
    f (f^[R.card] S0) = f^[R.card] S0 := by
  by_contra hne
  have hnofix : ∀ j, j ≤ R.card → f (f^[j] S0) ≠ f^[j] S0 := by
    intro j hj hfix
    refine hne ?_
    rw [iterate_fix_of_eq hfix R.card hj, hfix]
  have hgrow : ∀ k, k ≤ R.card + 1 → k ≤ (f^[k] S0).card := by
    intro k
    induction k with
    | zero => intro _; exact Nat.zero_le _
    | succ k ih =>
      intro hk
      have hk' : k ≤ R.card := by omega
      have hik := ih (by omega)
      have hsub := hinfl (f^[k] S0)
      have hne' : f^[k] S0 ≠ f (f^[k] S0) := fun he => hnofix k hk' he.symm
      have hlt : (f^[k] S0).card < (f (f^[k] S0)).card :=
        Finset.card_lt_card (lt_of_le_of_ne hsub hne')
      rw [Function.iterate_succ_apply']
      omega
  have h1 := hgrow (R.card + 1) le_rfl
  have h2 : (f^[R.card + 1] S0).card ≤ R.card :=
    Finset.card_le_card (iterate_bdd hbdd h0 _)
  omega

theorem ancStep_infl (mm : MiniMiner) (mined : Finset ℕ) :
    ∀ S, S ⊆ ancStep mm mined S := fun _ => Finset.subset_union_left

theorem ancStep_bdd (mm : MiniMiner) (mined : Finset ℕ) :
    ∀ S, S ⊆ Finset.range (txCount mm) →
      ancStep mm mined S ⊆ Finset.range (txCount mm) :=
  fun _ h => Finset.union_subset h (Finset.filter_subset _ _)

theorem ancStart_subset {mm : MiniMiner} {mined : Finset ℕ} {i : ℕ}
    (hi : i < txCount mm) :
    (if i ∈ mined then (∅ : Finset ℕ) else {i}) ⊆ Finset.range (txCount mm) := by
  split
  · exact Finset.empty_subset _
  · simpa using Finset.mem_range.mpr hi

theorem ancestorSet_subset_range {mm : MiniMiner} {mined : Finset ℕ} {i : ℕ}
    (hi : i < txCount mm) :
    ancestorSet mm mined i ⊆ Finset.range (txCount mm) :=
  iterate_bdd (ancStep_bdd mm mined) (ancStart_subset hi) _

theorem ancestorSet_fixed {mm : MiniMiner} {mined : Finset ℕ} {i : ℕ}
    (hi : i < txCount mm) :
    ancStep mm mined (ancestorSet mm mined i) = ancestorSet mm mined i := by
  have h0 : (if i ∈ mined then (∅ : Finset ℕ) else {i}) ⊆
      Finset.range (txCount mm) := ancStart_subset hi
  have h := iterate_fixpoint (ancStep_infl mm mined) (ancStep_bdd mm mined) h0
  simpa [ancestorSet, Finset.card_range] using h

theorem ancestorSet_not_mined {mm : MiniMiner} {mined : Finset ℕ} {i x : ℕ}
    (hx : x ∈ ancestorSet mm mined i) : x ∉ mined := by
  have key : ∀ (k : ℕ) (S : Finset ℕ), (∀ y ∈ S, y ∉ mined) →
      ∀ y ∈ (ancStep mm mined)^[k] S, y ∉ mined := by
    intro k
    induction k with
    | zero => intro S hS; simpa using hS
    | succ k ih =>
      intro S hS y hy
      rw [Function.iterate_succ_apply'] at hy
      rcases Finset.mem_union.mp hy with hy | hy
      · exact ih S hS y hy
      · exact (Finset.mem_filter.mp hy).2.1
  refine key _ _ ?_ x hx
  intro y hy
  by_cases him : i ∈ mined
  · simp [him] at hy
  · simp only [if_neg him, Finset.mem_singleton] at hy
    subst hy
    exact him

theorem ancestorSet_self {mm : MiniMiner} {mined : Finset ℕ} {i : ℕ}
    (hm : i ∉ mined) : i ∈ ancestorSet mm mined i := by
  have h0 : i ∈ (if i ∈ mined then (∅ : Finset ℕ) else {i}) := by simp [hm]
  exact iterate_infl_subset (ancStep_infl mm mined) _ (txCount mm) h0

theorem txVec_getD_mem {mm : MiniMiner} {i : ℕ} (hi : i < txCount mm) :
    mm.m_tx_vec.getD i ⟨0, 0, []⟩ ∈ mm.m_tx_vec := by
  rw [List.getD_eq_getElem _ _ hi]
  exact List.getElem_mem _

theorem txParents_lt {mm : MiniMiner} (hwf : MMWf mm) {i p : ℕ}
    (hi : i < txCount mm) (hp : p ∈ txParents mm i) : p < txCount mm :=
  hwf.2.2.1 _ (txVec_getD_mem hi) p hp

theorem ancestorSet_closed {mm : MiniMiner} (hwf : MMWf mm) {mined : Finset ℕ}
    {i x p : ℕ} (hi : i < txCount mm) (hx : x ∈ ancestorSet mm mined i)
    (hp : p ∈ txParents mm x) (hpm : p ∉ mined) :
    p ∈ ancestorSet mm mined i := by
  have hxr : x < txCount mm :=
    Finset.mem_range.mp (ancestorSet_subset_range hi hx)
  have hpr : p < txCount mm := txParents_lt hwf hxr hp
  rw [← ancestorSet_fixed hi]
  exact Finset.mem_union_right _
    (Finset.mem_filter.mpr ⟨Finset.mem_range.mpr hpr, hpm, x, hx, hp⟩)

theorem findCand_some {mm : MiniMiner} {t : Int} {m : Finset ℕ} {i : ℕ}
    (hc : findCand mm t m = some i) :
    i ∈ mm.m_top_sort ∧ i ∉ m ∧
      t * ancestorVsize mm m i ≤ ancestorFee mm m i := by
  have hmem := List.mem_of_find?_eq_some hc
  have hpred := List.find?_some hc
  simp only [minePred, Bool.and_eq_true, decide_eq_true_eq] at hpred
  exact ⟨hmem, hpred.1, hpred.2⟩

theorem buildLoop_findCand_none {mm : MiniMiner} {t : Int} (hwf : MMWf mm) :
    ∀ (fuel : ℕ) (m : Finset ℕ), m ⊆ Finset.range (txCount mm) →
      (Finset.range (txCount mm) \ m).card ≤ fuel →
      findCand mm t (buildLoop mm t fuel m) = none := by
  intro fuel
  induction fuel with
  | zero =>
    intro m _ hcard
    have hempty : Finset.range (txCount mm) \ m = ∅ :=
      Finset.card_eq_zero.mp (Nat.le_zero.mp hcard)
    have hall : Finset.range (txCount mm) ⊆ m := by
      intro x hx
      by_contra hxm
      have hmem : x ∈ Finset.range (txCount mm) \ m :=
        Finset.mem_sdiff.mpr ⟨hx, hxm⟩
      rw [hempty] at hmem
      exact absurd hmem (Finset.not_mem_empty x)
    rw [buildLoop]
    apply List.find?_eq_none.mpr
    intro i hi
    have hin : i ∈ m := hall (Finset.mem_range.mpr (hwf.1 i hi))
    simp [minePred, hin]
  | succ fuel ih =>
    intro m hm hcard
    rw [buildLoop]
    cases hc : findCand mm t m with
    | none => exact hc
    | some i =>
      obtain ⟨hits, him, _⟩ := findCand_some hc
      have hi : i < txCount mm := hwf.1 i hits
      apply ih
      · exact Finset.union_subset hm (ancestorSet_subset_range hi)
      · have hiA : i ∈ m ∪ ancestorSet mm m i :=
          Finset.mem_union_right _ (ancestorSet_self him)
        have hsub : Finset.range (txCount mm) \ (m ∪ ancestorSet mm m i) ⊆
            (Finset.range (txCount mm) \ m).erase i := by
          intro x hx
          obtain ⟨hxr, hxm⟩ := Finset.mem_sdiff.mp hx
          refine Finset.mem_erase.mpr ⟨?_, Finset.mem_sdiff.mpr
            ⟨hxr, fun hxm2 => hxm (Finset.mem_union_left _ hxm2)⟩⟩
          rintro rfl
          exact hxm hiA
        have hmem : i ∈ Finset.range (txCount mm) \ m :=
          Finset.mem_sdiff.mpr ⟨Finset.mem_range.mpr hi, him⟩
        have h1 := Finset.card_le_card hsub
        rw [Finset.card_erase_of_mem hmem] at h1
        omega

theorem template_quiescent {mm : MiniMiner} {t : Int} (hwf : MMWf mm) :
    findCand mm t (BuildMockTemplate mm t) = none := by
  unfold BuildMockTemplate
  apply buildLoop_findCand_none hwf
  · exact Finset.empty_subset _
  · simp

theorem template_unmined_lt {mm : MiniMiner} {t : Int} (hwf : MMWf mm) {i : ℕ}
    (hi : i < txCount mm) (hm : i ∉ BuildMockTemplate mm t) :
    ancestorFee mm (BuildMockTemplate mm t) i <
      t * ancestorVsize mm (BuildMockTemplate mm t) i := by
  have hq : findCand mm t (BuildMockTemplate mm t) = none :=
    template_quiescent hwf
  have hmem : i ∈ mm.m_top_sort := hwf.2.1 i (List.mem_range.mpr hi)
  have hfalse := List.find?_eq_none.mp hq i hmem
  simp [minePred, hm, not_le] at hfalse
  exact hfalse

theorem buildLoop_closed {mm : MiniMiner} {t : Int} (hwf : MMWf mm) :
    ∀ (fuel : ℕ) (m : Finset ℕ), m ⊆ Finset.range (txCount mm) →
      (∀ x ∈ m, ∀ p ∈ txParents mm x, p ∈ m) →
      ∀ x ∈ buildLoop mm t fuel m, ∀ p ∈ txParents mm x,
        p ∈ buildLoop mm t fuel m := by
  intro fuel
  induction fuel with
  | zero =>
    intro m _ hcl
    rw [buildLoop]
    exact hcl
  | succ fuel ih =>
    intro m hm hcl
    rw [buildLoop]
    cases hc : findCand mm t m with
    | none => exact hcl
    | some i =>
      obtain ⟨hits, him, _⟩ := findCand_some hc
      have hi : i < txCount mm := hwf.1 i hits
      refine ih _ (Finset.union_subset hm (ancestorSet_subset_range hi)) ?_
      intro x hx p hp
      rcases Finset.mem_union.mp hx with hx | hx
      · exact Finset.mem_union_left _ (hcl x hx p hp)
      · by_cases hpm : p ∈ m
        · exact Finset.mem_union_left _ hpm
        · exact Finset.mem_union_right _
            (ancestorSet_closed hwf hi hx hp hpm)

theorem template_closed {mm : MiniMiner} {t : Int} (hwf : MMWf mm) {x p : ℕ}
    (hx : x ∈ BuildMockTemplate mm t) (hp : p ∈ txParents mm x) :
    p ∈ BuildMockTemplate mm t := by
  unfold BuildMockTemplate at hx ⊢
  refine buildLoop_closed hwf _ _ (Finset.empty_subset _) ?_ x hx p hp
  intro y hy
  exact absurd hy (Finset.not_mem_empty y)

/-- C3: for every well-formed cluster and target feerate, after
BuildMockTemplate every unmined transaction has ancestor feerate
(over its unmined ancestors only) strictly below the target:
ancestor_fee < target * ancestor_vsize. -/
theorem claim_C3 (mm : MiniMiner) (t : Int) (hwf : MMWf mm) (i : ℕ)
    (hi : i < txCount mm) (hm : i ∉ BuildMockTemplate mm t) :
    ancestorFee mm (BuildMockTemplate mm t) i <
      t * ancestorVsize mm (BuildMockTemplate mm t) i :=
  template_unmined_lt hwf hi hm

/-- Witness for C3 on the one-transaction cluster mm1 at feerate 1. -/
theorem claim_C3_witness :
    MMWf mm1 ∧ (0 : ℕ) ∉ BuildMockTemplate mm1 1 ∧
      ancestorFee mm1 (BuildMockTemplate mm1 1) 0 <
        1 * ancestorVsize mm1 (BuildMockTemplate mm1 1) 0 :=
  ⟨by decide, by decide, claim_C3 mm1 1 (by decide) 0 (by decide) (by decide)⟩

/-- C9: after BuildMockTemplate the mined set is closed under the parent
relation: every parent of a mined transaction is mined. -/
theorem claim_C9 (mm : MiniMiner) (t : Int) (hwf : MMWf mm) (x : ℕ)
    (hx : x ∈ BuildMockTemplate mm t) (p : ℕ) (hp : p ∈ txParents mm x) :
    p ∈ BuildMockTemplate mm t :=
  template_closed hwf hx hp

/-- Witness for C9 on the two-transaction chain mm9 at feerate 1. -/
theorem claim_C9_witness :
    (1 : ℕ) ∈ BuildMockTemplate mm9 1 ∧ (0 : ℕ) ∈ BuildMockTemplate mm9 1 :=
  ⟨by decide, claim_C9 mm9 1 (by decide) 1 (by decide) 0 (by decide)⟩

theorem txMapLookup_lt {mm : MiniMiner} (hwf : MMWf mm) {h idx : ℕ}
    (hl : txMapLookup mm h = some idx) : idx < txCount mm := by
  unfold txMapLookup at hl
  cases hf : mm.m_tx_map.find? (fun p => p.1 == h) with
  | none => rw [hf] at hl; cases hl
  | some pr =>
    rw [hf] at hl
    cases hl
    exact hwf.2.2.2.1 pr (List.mem_of_find?_eq_some hf)

/-- C4: the bump fee emitted for a requested outpoint is 0 iff its txid
is absent from the mempool map or its transaction was mined by the mock
template; otherwise the emitted value
target_feerate.GetFee(ancestor_vsize) - ancestor_fee is strictly
positive. -/
theorem claim_C4 (mm : MiniMiner) (t : Int) (hwf : MMWf mm) (o : OutPoint)
    (_ho : o ∈ mm.m_requested_outpoints) :
    (bumpValue mm t (BuildMockTemplate mm t) o = 0 ↔
      txMapLookup mm o.1 = none ∨
        ∃ idx, txMapLookup mm o.1 = some idx ∧ idx ∈ BuildMockTemplate mm t) ∧
    ∀ idx, txMapLookup mm o.1 = some idx → idx ∉ BuildMockTemplate mm t →
      bumpValue mm t (BuildMockTemplate mm t) o =
        t * ancestorVsize mm (BuildMockTemplate mm t) idx -
          ancestorFee mm (BuildMockTemplate mm t) idx ∧
      0 < bumpValue mm t (BuildMockTemplate mm t) o := by
  cases hl : txMapLookup mm o.1 with
  | none =>
    constructor
    · constructor
      · intro _
        exact Or.inl rfl
      · intro _
        simp [bumpValue, hl]
    · intro idx hidx _
      cases hidx
  | some idx =>
    by_cases him : idx ∈ BuildMockTemplate mm t
    · constructor
      · constructor
        · intro _
          exact Or.inr ⟨idx, rfl, him⟩
        · intro _
          simp [bumpValue, hl, him]
      · intro idx' hidx' hm'
        cases hidx'
        exact absurd him hm'
    · have hlt : idx < txCount mm := txMapLookup_lt hwf hl
      have hpos : 0 < t * ancestorVsize mm (BuildMockTemplate mm t) idx -
          ancestorFee mm (BuildMockTemplate mm t) idx :=
        sub_pos.mpr (template_unmined_lt hwf hlt him)
      have hval : bumpValue mm t (BuildMockTemplate mm t) o =
          t * ancestorVsize mm (BuildMockTemplate mm t) idx -
            ancestorFee mm (BuildMockTemplate mm t) idx := by
        simp [bumpValue, hl, him]
      constructor
      · constructor
        · intro h0
          exact absurd (hval ▸ h0) (ne_of_gt hpos)
        · rintro (h | ⟨idx', hidx', him'⟩)
          · cases h
          · cases hidx'
            exact absurd him' him
      · intro idx' hidx' _
        cases hidx'
        exact ⟨hval, hval ▸ hpos⟩

/-- Witness for C4 on mm1 at feerate 1: the single requested outpoint is
in the mempool map, unmined, and gets the strictly positive bump 1. -/
theorem claim_C4_witness :
    MMWf mm1 ∧ (5, 0) ∈ mm1.m_requested_outpoints ∧
    ((bumpValue mm1 1 (BuildMockTemplate mm1 1) (5, 0) = 0 ↔
        txMapLookup mm1 (5, 0).1 = none ∨
          ∃ idx, txMapLookup mm1 (5, 0).1 = some idx ∧
            idx ∈ BuildMockTemplate mm1 1) ∧
      ∀ idx, txMapLookup mm1 (5, 0).1 = some idx →
        idx ∉ BuildMockTemplate mm1 1 →
        bumpValue mm1 1 (BuildMockTemplate mm1 1) (5, 0) =
          1 * ancestorVsize mm1 (BuildMockTemplate mm1 1) idx -
            ancestorFee mm1 (BuildMockTemplate mm1 1) idx ∧
        0 < bumpValue mm1 1 (BuildMockTemplate mm1 1) (5, 0)) :=
  ⟨by decide, by decide, claim_C4 mm1 1 (by decide) (5, 0) (by decide)⟩

/-- C5 as stated is false on the code: in mmC5 the two requested
transactions share the unmined ancestors 1 and 2, each of individual
feerate above the target, so counting them once in the union makes the
total bump (102) exceed the sum of the individual bumps (2 + 2). -/
theorem claim_C5_counterexample :
    ∃ b, CalculateTotalBumpFees mmC5 1 = some b ∧ sumBumpFees mmC5 1 < b :=
  ⟨102, by decide, by decide⟩

theorem sumBumpFees_eq (mm : MiniMiner) (t : Int) :
    sumBumpFees mm t =
      (mm.m_requested_outpoints.map
        (fun o => bumpValue mm t (BuildMockTemplate mm t) o)).sum := by
  unfold sumBumpFees CalculateBumpFees
  rw [List.map_map]
  rfl

theorem totalSeeds_spec {mm : MiniMiner} {M0 : Finset ℕ} {Q : ℕ → Prop} :
    ∀ (os : List OutPoint) (todo : List ℕ) (mined : Finset ℕ),
      (∀ o ∈ os, ∀ idx, txMapLookup mm o.1 = some idx → idx ∉ M0 → Q idx) →
      M0 ⊆ mined → (∀ x ∈ todo, Q x) →
      M0 ⊆ (totalSeeds mm os todo mined).2 ∧
        ∀ x ∈ (totalSeeds mm os todo mined).1, Q x := by
  intro os
  induction os with
  | nil =>
    intro todo mined _ hM ht
    exact ⟨hM, ht⟩
  | cons o os ih =>
    intro todo mined hseed hM ht
    rw [totalSeeds]
    cases hl : txMapLookup mm o.1 with
    | none =>
      exact ih todo mined
        (fun o' ho' => hseed o' (List.mem_cons_of_mem o ho')) hM ht
    | some idx =>
      dsimp only
      by_cases him : idx ∈ mined
      · rw [if_pos him]
        exact ih todo mined
          (fun o' ho' => hseed o' (List.mem_cons_of_mem o ho')) hM ht
      · rw [if_neg him]
        refine ih _ _ (fun o' ho' => hseed o' (List.mem_cons_of_mem o ho'))
          (hM.trans (Finset.subset_insert idx mined)) ?_
        intro x hx
        rcases List.mem_cons.mp hx with rfl | hx
        · exact hseed o (List.mem_cons_self o os) x hl
            (fun hM0 => him (hM hM0))
        · exact ht x hx

theorem totalWalk_spec {mm : MiniMiner} {M0 : Finset ℕ} {Q : ℕ → Prop}
    (hclosed : ∀ x p, Q x → p ∈ txParents mm x → p ∉ M0 → Q p) :
    ∀ (fuel : ℕ) (todo : List ℕ) (mined : Finset ℕ) (acc Lout : List ℕ),
      M0 ⊆ mined → (∀ x ∈ todo, Q x) → (∀ x ∈ acc, Q x) →
      totalWalk mm fuel todo mined acc = some Lout → ∀ x ∈ Lout, Q x := by
  intro fuel
  induction fuel with
  | zero =>
    intro todo mined acc Lout _ _ ha hw
    cases todo with
    | nil =>
      rw [totalWalk] at hw
      cases hw
      exact ha
    | cons x todo =>
      rw [totalWalk] at hw
      cases hw
  | succ fuel ih =>
    intro todo mined acc Lout hM ht ha hw
    cases todo with
    | nil =>
      rw [totalWalk] at hw
      cases hw
      exact ha
    | cons x todo =>
      rw [totalWalk] at hw
      refine ih _ _ _ _ ?_ ?_ ?_ hw
      · exact hM.trans (Finset.subset_insert x mined)
      · intro p hp
        rcases List.mem_append.mp hp with hp | hp
        · rw [List.mem_reverse] at hp
          obtain ⟨hpar, hdec⟩ := List.mem_filter.mp hp
          have hpm' : p ∉ insert x mined := of_decide_eq_true hdec
          have hpM0 : p ∉ M0 :=
            fun h => hpm' (Finset.mem_insert_of_mem (hM h))
          exact hclosed x p (ht x (List.mem_cons_self x todo)) hpar hpM0
        · exact ht p (List.mem_cons_of_mem x hp)
      · intro y hy
        rcases List.mem_cons.mp hy with rfl | hy
        · exact ht y (List.mem_cons_self y todo)
        · exact ha y hy

theorem sum_le_bumps {mm : MiniMiner} {t : Int} (hwf : MMWf mm) {M0 : Finset ℕ}
    (hterm : ∀ i, i < txCount mm → i ∉ M0 → txFee mm i ≤ t * txVsize mm i) :
    ∀ (os : List OutPoint) (A : Finset ℕ),
      (∀ x ∈ A, ∃ o ∈ os, ∃ idx, txMapLookup mm o.1 = some idx ∧ idx ∉ M0 ∧
        x ∈ ancestorSet mm M0 idx) →
      A.sum (fun x => t * txVsize mm x - txFee mm x) ≤
        (os.map (fun o => bumpValue mm t M0 o)).sum := by
  intro os
  induction os with
  | nil =>
    intro A hA
    have hempty : A = ∅ := Finset.eq_empty_of_forall_not_mem (fun x hx => by
      obtain ⟨o, ho, -⟩ := hA x hx
      exact absurd ho (List.not_mem_nil o))
    simp [hempty]
  | cons o os ih =>
    intro A hA
    cases hl : txMapLookup mm o.1 with
    | none =>
      have hA' : ∀ x ∈ A, ∃ o' ∈ os, ∃ idx, txMapLookup mm o'.1 = some idx ∧
          idx ∉ M0 ∧ x ∈ ancestorSet mm M0 idx := by
        intro x hx
        obtain ⟨o', ho', idx, hl', hrest⟩ := hA x hx
        rcases List.mem_cons.mp ho' with rfl | ho'
        · rw [hl] at hl'
          cases hl'
        · exact ⟨o', ho', idx, hl', hrest⟩
      rw [List.map_cons, List.sum_cons,
        show bumpValue mm t M0 o = 0 by simp [bumpValue, hl], zero_add]
      exact ih A hA'
    | some idx =>
      by_cases him : idx ∈ M0
      · have hA' : ∀ x ∈ A, ∃ o' ∈ os, ∃ idx, txMapLookup mm o'.1 = some idx ∧
            idx ∉ M0 ∧ x ∈ ancestorSet mm M0 idx := by
          intro x hx
          obtain ⟨o', ho', idx', hl', hi'M0, hxin⟩ := hA x hx
          rcases List.mem_cons.mp ho' with rfl | ho'
          · rw [hl] at hl'
            cases hl'
            exact absurd him hi'M0
          · exact ⟨o', ho', idx', hl', hi'M0, hxin⟩
        rw [List.map_cons, List.sum_cons,
          show bumpValue mm t M0 o = 0 by simp [bumpValue, hl, him], zero_add]
        exact ih A hA'
      · have hidxn : idx < txCount mm := txMapLookup_lt hwf hl
        have hancpos : ∀ x ∈ ancestorSet mm M0 idx,
            0 ≤ t * txVsize mm x - txFee mm x := by
          intro x hx
          have hxn : x < txCount mm :=
            Finset.mem_range.mp (ancestorSet_subset_range hidxn hx)
          exact sub_nonneg.mpr (hterm x hxn (ancestorSet_not_mined hx))
        have hsplit := Finset.sum_inter_add_sum_diff A (ancestorSet mm M0 idx)
          (fun x => t * txVsize mm x - txFee mm x)
        have h1 : (A ∩ ancestorSet mm M0 idx).sum
              (fun x => t * txVsize mm x - txFee mm x) ≤
            (ancestorSet mm M0 idx).sum
              (fun x => t * txVsize mm x - txFee mm x) :=
          Finset.sum_le_sum_of_subset_of_nonneg Finset.inter_subset_right
            (fun x hx _ => hancpos x hx)
        have h2 : (A \ ancestorSet mm M0 idx).sum
              (fun x => t * txVsize mm x - txFee mm x) ≤
            (os.map (fun o => bumpValue mm t M0 o)).sum := by
          apply ih
          intro x hx
          obtain ⟨hxA, hxanc⟩ := Finset.mem_sdiff.mp hx
          obtain ⟨o', ho', idx', hl', hi'M0, hxin⟩ := hA x hxA
          rcases List.mem_cons.mp ho' with rfl | ho'
          · rw [hl] at hl'
            cases hl'
            exact absurd hxin hxanc
          · exact ⟨o', ho', idx', hl', hi'M0, hxin⟩
        have hbump : bumpValue mm t M0 o = (ancestorSet mm M0 idx).sum
            (fun x => t * txVsize mm x - txFee mm x) := by
          rw [show bumpValue mm t M0 o =
              t * ancestorVsize mm M0 idx - ancestorFee mm M0 idx by
            simp [bumpValue, hl, him]]
          unfold ancestorFee ancestorVsize
          rw [Finset.mul_sum, ← Finset.sum_sub_distrib]
        rw [List.map_cons, List.sum_cons, hbump]
        linarith [hsplit, h1, h2]

/-- C5 amended: provided the union walk of CalculateTotalBumpFees visits
no transaction twice and every transaction left unmined by the template
has individual feerate at most the target (fee <= target * vsize), the
total bump fee is at most the sum of the per-outpoint bump fees of
CalculateBumpFees; the code counts each shared unmined ancestor of the
walk once toward the total. -/
theorem claim_C5_amended (mm : MiniMiner) (t : Int) (hwf : MMWf mm)
    (L : List ℕ) (hw : totalWalkRun mm t = some L) (hnd : L.Nodup)
    (hterm : ∀ i, i < txCount mm → i ∉ BuildMockTemplate mm t →
      txFee mm i ≤ t * txVsize mm i)
    (b : Int) (hb : CalculateTotalBumpFees mm t = some b) :
    b ≤ sumBumpFees mm t := by
  have hbval : b = t * (L.map (txVsize mm)).sum - (L.map (txFee mm)).sum := by
    unfold CalculateTotalBumpFees at hb
    rw [hw] at hb
    simp only [Option.map_some'] at hb
    exact (Option.some.inj hb).symm
  have hP : ∀ x ∈ L, ∃ o ∈ mm.m_requested_outpoints, ∃ idx,
      txMapLookup mm o.1 = some idx ∧ idx ∉ BuildMockTemplate mm t ∧
      x ∈ ancestorSet mm (BuildMockTemplate mm t) idx := by
    unfold totalWalkRun at hw
    simp only at hw
    have hseeds := totalSeeds_spec
      (Q := fun x => ∃ o ∈ mm.m_requested_outpoints, ∃ idx,
        txMapLookup mm o.1 = some idx ∧ idx ∉ BuildMockTemplate mm t ∧
        x ∈ ancestorSet mm (BuildMockTemplate mm t) idx)
      mm.m_requested_outpoints [] (BuildMockTemplate mm t)
      (fun o ho idx hl hM0 =>
        ⟨o, ho, idx, hl, hM0, ancestorSet_self hM0⟩)
      (subset_refl _) (by intro x hx; exact absurd hx (List.not_mem_nil x))
    refine totalWalk_spec ?_ _ _ _ _ _ hseeds.1 hseeds.2
      (by intro x hx; exact absurd hx (List.not_mem_nil x)) hw
    intro x p hQ hp hpM0
    obtain ⟨o, ho, idx, hl, hM0, hxin⟩ := hQ
    exact ⟨o, ho, idx, hl, hM0,
      ancestorSet_closed hwf (txMapLookup_lt hwf hl) hxin hp hpM0⟩
  have hV : (L.map (txVsize mm)).sum = L.toFinset.sum (txVsize mm) :=
    (List.sum_toFinset _ hnd).symm
  have hF : (L.map (txFee mm)).sum = L.toFinset.sum (txFee mm) :=
    (List.sum_toFinset _ hnd).symm
  rw [hbval, sumBumpFees_eq, hV, hF, Finset.mul_sum, ← Finset.sum_sub_distrib]
  exact sum_le_bumps hwf hterm mm.m_requested_outpoints L.toFinset
    (fun x hx => hP x (List.mem_toFinset.mp hx))

/-- Witness for the amended C5 on mm1 at feerate 1: the walk visits the
single transaction once and the total bump 1 equals the sum of bumps. -/
theorem claim_C5_amended_witness :
    totalWalkRun mm1 1 = some [0] ∧ CalculateTotalBumpFees mm1 1 = some 1 ∧
      (1 : Int) ≤ sumBumpFees mm1 1 :=
  ⟨by decide, by decide,
    claim_C5_amended mm1 1 (by decide) [0] (by decide) (by decide) (by decide)
      1 (by decide)⟩
